import Mathlib

/-!
Shallow embedding of the `pid-allocator` crate: a fixed-capacity two-level
bitmap PID allocator.  The crate contains two copies of the core data
structure, `src/lib.rs` and `src/allocator.rs`; their `allocate` bodies are
identical, their `recycle` bodies differ (conditional versus unconditional
clearing of the summary bit), and only `src/allocator.rs` has `contains`.

Machine words (`usize` on the 64-bit targets the crate documents) are
modelled as `Nat` together with the well-formedness bound `< 2 ^ 64`.
Fallible array indexing (which panics in Rust when out of bounds) is
modelled with `Option`: `none` is the panic branch.
-/

namespace PidAlloc

/-- `usize::BITS` on the 64-bit architecture fixed by the spec's concrete
scenario (`WORD_BITS = 64`). -/
def WORD_BITS : Nat := 64

/-- `usize::MAX`, the all-ones word. -/
def USIZE_MAX : Nat := 2 ^ 64 - 1

/-- `usize::BITS.trailing_zeros()`, the shift used by `src/allocator.rs`
(`BITS_PER_LAYER_SHIFT`). -/
def BITS_PER_LAYER_SHIFT : Nat := 6

/-- Bounded-width helper for `lowestZeroBit`: scan at most `fuel` bits of `w`
from the low end, returning the position of the first clear bit (or `fuel`
when all scanned bits are set, matching `trailing_zeros` of a zero
complement). -/
def lowestZeroBitAux : Nat → Nat → Nat
  | 0, _ => 0
  | fuel + 1, w => if w % 2 = 0 then 0 else lowestZeroBitAux fuel (w / 2) + 1

/-- `(!layer).trailing_zeros() as usize` for a 64-bit word `layer`: the
position of the lowest clear bit of `layer` (64 when `layer` is all-ones). -/
def lowestZeroBit (w : Nat) : Nat := lowestZeroBitAux WORD_BITS w

/-- The internal state of the PID allocator (`PidAllocatorInner<ORDER>`):
the summary word `top_layer` and the detail words `bottom_layers`.
`ORDER` is the length of `bottom_layers`. -/
structure PidAllocatorInner where
  top_layer : Nat
  bottom_layers : List Nat
  deriving DecidableEq

/-- `PidAllocatorInner::new()`: empty pool, everything clear. -/
def PidAllocatorInner.new (order : Nat) : PidAllocatorInner :=
  { top_layer := 0, bottom_layers := List.replicate order 0 }

/-- The loop of `PidAllocatorInner::allocate`
(`for (index, &layer) in self.bottom_layers.iter().enumerate()`):
finds the first detail word that is not all-ones, sets its lowest clear bit,
and returns the (relative) word index, the bit position, the updated word
list, and whether the word just became all-ones. -/
def allocAux : List Nat → Option (Nat × Nat × List Nat × Bool)
  | [] => none
  | layer :: rest =>
    if layer = USIZE_MAX then
      (allocAux rest).map fun r => (r.1 + 1, r.2.1, layer :: r.2.2.1, r.2.2.2)
    else
      let free_bit := lowestZeroBit layer
      let w := layer ||| (1 <<< free_bit)
      some (0, free_bit, w :: rest, w == USIZE_MAX)

/-- `PidAllocatorInner::allocate` (identical in `src/lib.rs` lines 52-64 and
`src/allocator.rs` lines 136-148): returns the allocated PID (or `none` on
exhaustion) together with the updated state, setting the summary bit when the
chosen detail word becomes all-ones. -/
def PidAllocatorInner.allocate (s : PidAllocatorInner) :
    Option Nat × PidAllocatorInner :=
  match allocAux s.bottom_layers with
  | none => (none, s)
  | some (index, free_bit, layers, full) =>
    (some (index * WORD_BITS + free_bit),
     { top_layer := if full then s.top_layer ||| (1 <<< index) else s.top_layer,
       bottom_layers := layers })

/-- `PidAllocatorInner::recycle` of `src/lib.rs` (lines 67-75): clears the
bit, then clears the summary bit only when the detail word is no longer
all-ones.  The out-of-bounds panic of `self.bottom_layers[layer_index]` is
the `none` branch. -/
def recycleLib (s : PidAllocatorInner) (number : Nat) :
    Option PidAllocatorInner :=
  let bits_per_layer := WORD_BITS
  let layer_index := number / bits_per_layer
  let bit_index := number % bits_per_layer
  match s.bottom_layers[layer_index]? with
  | none => none
  | some w =>
    let w2 := w &&& (USIZE_MAX ^^^ (1 <<< bit_index))
    some { top_layer :=
             if w2 ≠ USIZE_MAX then
               s.top_layer &&& (USIZE_MAX ^^^ (1 <<< layer_index))
             else s.top_layer,
           bottom_layers := s.bottom_layers.set layer_index w2 }

/-- `PidAllocatorInner::recycle` of `src/allocator.rs` (lines 151-159):
clears the bit via shift/mask index arithmetic and clears the summary bit
unconditionally.  The out-of-bounds panic is the `none` branch. -/
def recycleAllocator (s : PidAllocatorInner) (number : Nat) :
    Option PidAllocatorInner :=
  let layer_index := number >>> BITS_PER_LAYER_SHIFT
  let bit_index := number &&& (WORD_BITS - 1)
  match s.bottom_layers[layer_index]? with
  | none => none
  | some w =>
    some { top_layer := s.top_layer &&& (USIZE_MAX ^^^ (1 <<< layer_index)),
           bottom_layers :=
             s.bottom_layers.set layer_index
               (w &&& (USIZE_MAX ^^^ (1 <<< bit_index))) }

/-- `PidAllocatorInner::contains` of `src/allocator.rs` (lines 162-172):
total over all of `Nat`, returning `false` out of range. -/
def PidAllocatorInner.contains (s : PidAllocatorInner) (number : Nat) : Bool :=
  let layer_index := number >>> BITS_PER_LAYER_SHIFT
  let bit_index := number &&& ((1 <<< BITS_PER_LAYER_SHIFT) - 1)
  if layer_index < s.bottom_layers.length then
    (s.bottom_layers.getD layer_index 0) &&& (1 <<< bit_index) != 0
  else
    false

/-- Iterate `allocate` `n` times, collecting each attempt's result. -/
def allocN (s : PidAllocatorInner) : Nat → List (Option Nat) × PidAllocatorInner
  | 0 => ([], s)
  | n + 1 =>
    let p := s.allocate
    let q := allocN p.2 n
    (p.1 :: q.1, q.2)

/-- Well-formedness: every detail word fits in a 64-bit machine word. -/
def Wf (s : PidAllocatorInner) : Prop :=
  ∀ w ∈ s.bottom_layers, w < 2 ^ WORD_BITS

/-- The spec's summary invariant: summary bit `i` is set iff detail word `i`
is all-ones. -/
def SummaryInv (s : PidAllocatorInner) : Prop :=
  ∀ i < s.bottom_layers.length,
    (s.top_layer.testBit i ↔ s.bottom_layers.getD i 0 = USIZE_MAX)

/-! ### Bit-level helper lemmas -/

theorem USIZE_MAX_lt : USIZE_MAX < 2 ^ WORD_BITS := by
  simp [USIZE_MAX, WORD_BITS]

theorem testBit_USIZE_MAX (i : Nat) :
    USIZE_MAX.testBit i = decide (i < WORD_BITS) :=
  Nat.testBit_two_pow_sub_one WORD_BITS i

/-- A word below `2 ^ WORD_BITS` that is not all-ones has a clear bit below
`WORD_BITS`. -/
theorem exists_clear_bit {w : Nat} (hw : w < 2 ^ WORD_BITS)
    (hne : w ≠ USIZE_MAX) : ∃ j < WORD_BITS, w.testBit j = false := by
  by_contra hcon
  push_neg at hcon
  apply hne
  apply Nat.eq_of_testBit_eq
  intro i
  rw [testBit_USIZE_MAX]
  by_cases hi : i < WORD_BITS
  · have := Bool.ne_false_iff.mp (hcon i hi)
    simp [hi, this]
  · have hfalse : w.testBit i = false :=
      Nat.testBit_lt_two_pow (lt_of_lt_of_le hw
        (Nat.pow_le_pow_right (by norm_num) (Nat.le_of_not_lt hi)))
    simp [hi, hfalse]

theorem lowestZeroBitAux_spec (fuel : Nat) :
    ∀ w : Nat, (∃ j < fuel, w.testBit j = false) →
      lowestZeroBitAux fuel w < fuel ∧
        w.testBit (lowestZeroBitAux fuel w) = false ∧
        ∀ j < lowestZeroBitAux fuel w, w.testBit j = true := by
  induction fuel with
  | zero => intro w h; obtain ⟨j, hj, -⟩ := h; omega
  | succ fuel ih =>
    intro w h
    by_cases he : w % 2 = 0
    · refine ⟨by simp [lowestZeroBitAux, he], ?_, ?_⟩
      · simp [lowestZeroBitAux, he, Nat.testBit_zero]
      · simp [lowestZeroBitAux, he]
    · have hz : w.testBit 0 = true := by
        simp [Nat.testBit_zero]; omega
      have hrec : ∃ j < fuel, (w / 2).testBit j = false := by
        obtain ⟨j, hj, hjf⟩ := h
        match j with
        | 0 => rw [hz] at hjf; cases hjf
        | j + 1 =>
          exact ⟨j, by omega, by rw [← Nat.testBit_add_one]; exact hjf⟩
      obtain ⟨h1, h2, h3⟩ := ih (w / 2) hrec
      have heq : lowestZeroBitAux (fuel + 1) w
          = lowestZeroBitAux fuel (w / 2) + 1 := by
        simp [lowestZeroBitAux, he]
      refine ⟨by omega, ?_, ?_⟩
      · rw [heq, Nat.testBit_add_one]; exact h2
      · intro j hj
        rw [heq] at hj
        match j with
        | 0 => exact hz
        | j + 1 =>
          rw [Nat.testBit_add_one]
          exact h3 j (by omega)

theorem lowestZeroBit_lt {w : Nat} (hw : w < 2 ^ WORD_BITS)
    (hne : w ≠ USIZE_MAX) : lowestZeroBit w < WORD_BITS :=
  (lowestZeroBitAux_spec WORD_BITS w (exists_clear_bit hw hne)).1

theorem lowestZeroBit_clear {w : Nat} (hw : w < 2 ^ WORD_BITS)
    (hne : w ≠ USIZE_MAX) : w.testBit (lowestZeroBit w) = false :=
  (lowestZeroBitAux_spec WORD_BITS w (exists_clear_bit hw hne)).2.1

theorem lowestZeroBit_min {w : Nat} (hw : w < 2 ^ WORD_BITS)
    (hne : w ≠ USIZE_MAX) : ∀ j < lowestZeroBit w, w.testBit j = true :=
  (lowestZeroBitAux_spec WORD_BITS w (exists_clear_bit hw hne)).2.2

/-- `lowestZeroBit` is the unique position that is clear with all lower bits
set. -/
theorem lowestZeroBit_eq {w b : Nat} (hw : w < 2 ^ WORD_BITS)
    (hb : b < WORD_BITS) (hclear : w.testBit b = false)
    (hmin : ∀ j < b, w.testBit j = true) : lowestZeroBit w = b := by
  have hne : w ≠ USIZE_MAX := by
    intro h
    rw [h, testBit_USIZE_MAX] at hclear
    simp [hb] at hclear
  rcases Nat.lt_trichotomy (lowestZeroBit w) b with h | h | h
  · have := hmin _ h
    rw [lowestZeroBit_clear hw hne] at this
    cases this
  · exact h
  · have := lowestZeroBit_min hw hne b h
    rw [hclear] at this
    cases this

theorem lowestZeroBit_two_pow_sub_one {r : Nat} (hr : r < WORD_BITS) :
    lowestZeroBit (2 ^ r - 1) = r := by
  have hpos : 0 < 2 ^ r := Nat.two_pow_pos r
  have hle : 2 ^ r ≤ 2 ^ WORD_BITS := Nat.pow_le_pow_right (by norm_num) (by omega)
  have hlt : 2 ^ r - 1 < 2 ^ WORD_BITS := by omega
  exact lowestZeroBit_eq hlt hr (by simp) (by intro j hj; simp; omega)

/-- Setting the lowest clear bit of a block of trailing ones extends the
block. -/
theorem two_pow_sub_one_or (r : Nat) :
    (2 ^ r - 1) ||| (1 <<< r) = 2 ^ (r + 1) - 1 := by
  apply Nat.eq_of_testBit_eq
  intro i
  rw [Nat.one_shiftLeft]
  simp only [Nat.testBit_or, Nat.testBit_two_pow_sub_one, Nat.testBit_two_pow]
  by_cases h : i < r
  · have h1 : i < r + 1 := by omega
    have h2 : r ≠ i := by omega
    simp [h, h1, h2]
  · by_cases he : r = i
    · subst he
      simp
    · have h1 : ¬ i < r + 1 := by omega
      simp [h, h1, he]

/-- A word with a freshly set bit at `b < WORD_BITS` is nonzero on that bit
and unchanged elsewhere. -/
theorem testBit_or_one_shiftLeft (w b i : Nat) :
    (w ||| (1 <<< b)).testBit i = (w.testBit i || decide (b = i)) := by
  rw [Nat.one_shiftLeft, Nat.testBit_or, Nat.testBit_two_pow]

/-- A word with bit `b` cleared through the 64-bit mask `!(1 << b)`. -/
theorem testBit_and_mask (w b i : Nat) (hb : b < WORD_BITS) :
    (w &&& (USIZE_MAX ^^^ (1 <<< b))).testBit i
      = (w.testBit i && decide (i < WORD_BITS) && !(decide (b = i))) := by
  rw [Nat.one_shiftLeft, Nat.testBit_and, Nat.testBit_xor, testBit_USIZE_MAX,
    Nat.testBit_two_pow]
  by_cases he : b = i
  · subst he
    simp [hb]
  · simp [he]

/-- The membership test `w &&& (1 <<< b) != 0` is `testBit`. -/
theorem and_one_shiftLeft_ne_zero (w b : Nat) :
    (w &&& (1 <<< b) != 0) = w.testBit b := by
  rw [Nat.one_shiftLeft]
  cases hb : w.testBit b
  · have hz : w &&& 2 ^ b = 0 := by
      apply Nat.eq_of_testBit_eq
      intro i
      simp only [Nat.testBit_and, Nat.testBit_two_pow, Nat.zero_testBit]
      by_cases hib : b = i
      · subst hib
        simp [hb]
      · simp [hib]
    simp [hz]
  · have hnz : (w &&& 2 ^ b).testBit b = true := by
      simp [Nat.testBit_and, hb, Nat.testBit_two_pow]
    simp only [bne_iff_ne, ne_eq, decide_eq_true_eq]
    intro h
    rw [h] at hnz
    simp at hnz

/-! ### Characterization of the allocation scan -/

theorem allocAux_eq_none_iff (l : List Nat) :
    allocAux l = none ↔ ∀ w ∈ l, w = USIZE_MAX := by
  induction l with
  | nil => simp [allocAux]
  | cons a t ih =>
    by_cases ha : a = USIZE_MAX
    · have hstep : allocAux (a :: t)
          = (allocAux t).map fun r => (r.1 + 1, r.2.1, a :: r.2.2.1, r.2.2.2) := by
        simp [allocAux, ha]
      rw [hstep, Option.map_eq_none', ih]
      constructor
      · intro h w hw
        rcases List.mem_cons.mp hw with rfl | hw2
        · exact ha
        · exact h w hw2
      · intro h w hw
        exact h w (List.mem_cons_of_mem a hw)
    · simp [allocAux, ha]

theorem allocAux_eq_some (l : List Nat) :
    ∀ i : Nat, i < l.length → (∀ j < i, l.getD j 0 = USIZE_MAX) →
      l.getD i 0 ≠ USIZE_MAX →
      allocAux l = some (i, lowestZeroBit (l.getD i 0),
        l.set i (l.getD i 0 ||| (1 <<< lowestZeroBit (l.getD i 0))),
        (l.getD i 0 ||| (1 <<< lowestZeroBit (l.getD i 0))) == USIZE_MAX) := by
  induction l with
  | nil => intro i hi; simp at hi
  | cons a t ih =>
    intro i hi hfull hne
    match i with
    | 0 =>
      simp only [List.getD_cons_zero] at hne ⊢
      simp [allocAux, hne]
    | i + 1 =>
      have ha : a = USIZE_MAX := by
        have := hfull 0 (by omega)
        simpa using this
      have ht := ih i (by simpa using hi)
        (fun j hj => by have := hfull (j + 1) (by omega); simpa using this)
        (by simpa using hne)
      simp only [allocAux, if_pos ha, ht, Option.map_some', List.getD_cons_succ,
        List.set_cons_succ]

/-- `allocate` fails exactly when every detail word is all-ones, and then
leaves the state unchanged. -/
theorem allocate_of_forall_max (s : PidAllocatorInner)
    (h : ∀ w ∈ s.bottom_layers, w = USIZE_MAX) : s.allocate = (none, s) := by
  unfold PidAllocatorInner.allocate
  rw [(allocAux_eq_none_iff s.bottom_layers).mpr h]

/-- `allocate`, given the first detail word that is not all-ones. -/
theorem allocate_spec (s : PidAllocatorInner) (i : Nat)
    (hi : i < s.bottom_layers.length)
    (hfull : ∀ j < i, s.bottom_layers.getD j 0 = USIZE_MAX)
    (hne : s.bottom_layers.getD i 0 ≠ USIZE_MAX) :
    s.allocate
      = (some (i * WORD_BITS + lowestZeroBit (s.bottom_layers.getD i 0)),
        { top_layer :=
            if s.bottom_layers.getD i 0
                ||| (1 <<< lowestZeroBit (s.bottom_layers.getD i 0))
                = USIZE_MAX
            then s.top_layer ||| (1 <<< i) else s.top_layer,
          bottom_layers :=
            s.bottom_layers.set i
              (s.bottom_layers.getD i 0
                ||| (1 <<< lowestZeroBit (s.bottom_layers.getD i 0))) }) := by
  unfold PidAllocatorInner.allocate
  rw [allocAux_eq_some s.bottom_layers i hi hfull hne]
  by_cases hfl : s.bottom_layers.getD i 0
      ||| (1 <<< lowestZeroBit (s.bottom_layers.getD i 0)) = USIZE_MAX
  · simp [hfl]
  · simp [hfl]

theorem allocate_fst_eq_none_iff (s : PidAllocatorInner) :
    s.allocate.1 = none ↔ ∀ w ∈ s.bottom_layers, w = USIZE_MAX := by
  constructor
  · intro h
    by_contra hcon
    push_neg at hcon
    obtain ⟨w, hw, hwne⟩ := hcon
    obtain ⟨i0, hi0, hget⟩ := List.mem_iff_getElem.mp hw
    have hPex : ∃ n, n < s.bottom_layers.length
        ∧ s.bottom_layers.getD n 0 ≠ USIZE_MAX :=
      ⟨i0, hi0, by simpa [List.getD_eq_getElem?_getD, hi0, hget] using hwne⟩
    have hspec := Nat.find_spec hPex
    have hmin : ∀ j < Nat.find hPex, s.bottom_layers.getD j 0 = USIZE_MAX := by
      intro j hj
      have hj2 := Nat.find_min hPex hj
      push_neg at hj2
      exact hj2 (lt_trans hj hspec.1)
    rw [allocate_spec s (Nat.find hPex) hspec.1 hmin hspec.2] at h
    cases h
  · intro h
    rw [allocate_of_forall_max s h]

/-- The first component of a non-empty location found by `allocate`. -/
theorem allocate_some_elim (s : PidAllocatorInner) {pid : Nat}
    (h : s.allocate.1 = some pid) :
    ∃ i < s.bottom_layers.length,
      (∀ j < i, s.bottom_layers.getD j 0 = USIZE_MAX) ∧
      s.bottom_layers.getD i 0 ≠ USIZE_MAX ∧
      pid = i * WORD_BITS + lowestZeroBit (s.bottom_layers.getD i 0) := by
  by_cases hall : ∀ w ∈ s.bottom_layers, w = USIZE_MAX
  · rw [allocate_of_forall_max s hall] at h
    cases h
  · push_neg at hall
    obtain ⟨w, hw, hwne⟩ := hall
    obtain ⟨i0, hi0, hget⟩ := List.mem_iff_getElem.mp hw
    have hPex : ∃ n, n < s.bottom_layers.length
        ∧ s.bottom_layers.getD n 0 ≠ USIZE_MAX :=
      ⟨i0, hi0, by simpa [List.getD_eq_getElem?_getD, hi0, hget] using hwne⟩
    have hspec := Nat.find_spec hPex
    have hmin : ∀ j < Nat.find hPex, s.bottom_layers.getD j 0 = USIZE_MAX := by
      intro j hj
      have hj2 := Nat.find_min hPex hj
      push_neg at hj2
      exact hj2 (lt_trans hj hspec.1)
    rw [allocate_spec s (Nat.find hPex) hspec.1 hmin hspec.2] at h
    exact ⟨Nat.find hPex, hspec.1, hmin, hspec.2, (Option.some_inj.mp h).symm⟩

/-! ### The `contains` query -/

theorem shiftRight_shift (n : Nat) :
    n >>> BITS_PER_LAYER_SHIFT = n / WORD_BITS := by
  rw [Nat.shiftRight_eq_div_pow]
  rfl

theorem and_word_mask (n : Nat) : n &&& (WORD_BITS - 1) = n % WORD_BITS := by
  have : WORD_BITS - 1 = 2 ^ BITS_PER_LAYER_SHIFT - 1 := by rfl
  rw [this, Nat.and_pow_two_sub_one_eq_mod]
  rfl

/-- `contains` in terms of word index and bit position. -/
theorem contains_eq (s : PidAllocatorInner) (n : Nat) :
    s.contains n
      = if n / WORD_BITS < s.bottom_layers.length then
          (s.bottom_layers.getD (n / WORD_BITS) 0).testBit (n % WORD_BITS)
        else false := by
  unfold PidAllocatorInner.contains
  have hbit : n &&& ((1 <<< BITS_PER_LAYER_SHIFT) - 1) = n % WORD_BITS := by
    have : (1 <<< BITS_PER_LAYER_SHIFT) - 1 = WORD_BITS - 1 := by rfl
    rw [this, and_word_mask]
  rw [shiftRight_shift, hbit]
  by_cases h : n / WORD_BITS < s.bottom_layers.length
  · rw [if_pos h, if_pos h, and_one_shiftLeft_ne_zero]
  · rw [if_neg h, if_neg h]

theorem contains_lt {s : PidAllocatorInner} {n : Nat}
    (h : s.contains n = true) : n / WORD_BITS < s.bottom_layers.length := by
  rw [contains_eq] at h
  by_contra hcon
  rw [if_neg hcon] at h
  cases h

/-- Getting a defaulted element of an in-range index is a member. -/
theorem getD_mem {l : List Nat} {i : Nat} (hi : i < l.length) :
    l.getD i 0 ∈ l := by
  rw [List.getD_eq_getElem?_getD, List.getElem?_eq_getElem hi]
  exact List.getElem_mem hi

theorem WORD_BITS_pos : 0 < WORD_BITS := by decide

theorem getD_set_self {l : List Nat} {i : Nat} (hi : i < l.length)
    (v : Nat) : (l.set i v).getD i 0 = v := by
  rw [List.getD_eq_getElem?_getD, List.getElem?_set_self hi, Option.getD_some]

theorem getD_set_ne {l : List Nat} {i j : Nat} (h : i ≠ j) (v : Nat) :
    (l.set i v).getD j 0 = l.getD j 0 := by
  rw [List.getD_eq_getElem?_getD, List.getElem?_set_ne h,
    ← List.getD_eq_getElem?_getD]

/-! ### The effect of one allocation step -/

theorem allocate_step (s : PidAllocatorInner) (hwf : Wf s) {pid : Nat}
    (h : s.allocate.1 = some pid) :
    pid < WORD_BITS * s.bottom_layers.length ∧
    s.contains pid = false ∧
    s.allocate.2.contains pid = true ∧
    (∀ q, q ≠ pid → s.allocate.2.contains q = s.contains q) ∧
    (∀ y < pid, s.contains y = true) ∧
    Wf s.allocate.2 ∧
    s.allocate.2.bottom_layers.length = s.bottom_layers.length := by
  obtain ⟨i, hi, hfull, hne, hpid⟩ := allocate_some_elim s h
  set w := s.bottom_layers.getD i 0 with hw
  have hwlt : w < 2 ^ WORD_BITS := hwf w (getD_mem hi)
  set b := lowestZeroBit w with hb
  have hblt : b < WORD_BITS := lowestZeroBit_lt hwlt hne
  have hdiv : pid / WORD_BITS = i := by
    rw [hpid, Nat.mul_comm, Nat.mul_add_div WORD_BITS_pos,
      Nat.div_eq_of_lt hblt, Nat.add_zero]
  have hmod : pid % WORD_BITS = b := by
    rw [hpid, Nat.mul_comm, Nat.mul_add_mod, Nat.mod_eq_of_lt hblt]
  have hsnd := allocate_spec s i hi hfull hne
  have hlayers : s.allocate.2.bottom_layers
      = s.bottom_layers.set i (w ||| (1 <<< b)) := by
    rw [hsnd]
  have hlen : s.allocate.2.bottom_layers.length = s.bottom_layers.length := by
    rw [hlayers, List.length_set]
  have hgetset : (s.bottom_layers.set i (w ||| (1 <<< b))).getD i 0
      = w ||| (1 <<< b) := by
    rw [List.getD_eq_getElem?_getD, List.getElem?_set_self (by omega)]
    rfl
  refine ⟨?_, ?_, ?_, ?_, ?_, ?_, hlen⟩
  · rw [hpid]
    calc i * WORD_BITS + b < i * WORD_BITS + WORD_BITS := by omega
    _ = WORD_BITS * (i + 1) := by ring
    _ ≤ WORD_BITS * s.bottom_layers.length := by
        exact Nat.mul_le_mul_left _ (by omega)
  · rw [contains_eq, hdiv, if_pos hi, hmod]
    exact lowestZeroBit_clear hwlt hne
  · rw [contains_eq, hdiv, hlen, if_pos hi, hmod, hlayers, hgetset,
      testBit_or_one_shiftLeft]
    simp
  · intro q hq
    rw [contains_eq, contains_eq, hlen, hlayers]
    by_cases hqr : q / WORD_BITS < s.bottom_layers.length
    · rw [if_pos hqr, if_pos hqr]
      by_cases hqi : q / WORD_BITS = i
      · rw [hqi, hgetset, ← hw, testBit_or_one_shiftLeft]
        have hqb : b ≠ q % WORD_BITS := by
          intro hbq
          apply hq
          rw [hpid, ← hqi, hbq]
          exact (Nat.div_add_mod' q WORD_BITS).symm
        simp [hqb]
      · rw [List.getD_eq_getElem?_getD, List.getD_eq_getElem?_getD,
          List.getElem?_set_ne (fun hc => hqi hc.symm)]
    · rw [if_neg hqr, if_neg hqr]
  · intro y hy
    rw [hpid] at hy
    have hylt : y / WORD_BITS ≤ i := by
      have hy64 := hy
      have hb64 := hblt
      simp only [WORD_BITS] at hy64 hb64 ⊢
      omega
    rcases Nat.lt_or_ge (y / WORD_BITS) i with hyi | hyi
    · rw [contains_eq, if_pos (by omega), hfull _ hyi, testBit_USIZE_MAX]
      simp [Nat.mod_lt y WORD_BITS_pos]
    · have hyi2 : y / WORD_BITS = i := by omega
      have hymod : y % WORD_BITS < b := by
        have hy64 := hy
        have hyi64 := hyi2
        simp only [WORD_BITS] at hy64 hyi64 ⊢
        omega
      rw [contains_eq, if_pos (by omega), hyi2]
      exact lowestZeroBit_min hwlt hne _ hymod
  · intro v hv
    rw [hlayers] at hv
    rcases List.mem_or_eq_of_mem_set hv with hv2 | rfl
    · exact hwf v hv2
    · exact Nat.or_lt_two_pow hwlt
        (by rw [Nat.one_shiftLeft]
            exact Nat.pow_lt_pow_right (by norm_num) hblt)

/-! ### Iterated allocation -/

theorem allocN_succ (s : PidAllocatorInner) (n : Nat) :
    allocN s (n + 1)
      = (s.allocate.1 :: (allocN s.allocate.2 n).1, (allocN s.allocate.2 n).2) :=
  rfl

theorem allocN_length (n : Nat) :
    ∀ s : PidAllocatorInner, (allocN s n).1.length = n := by
  induction n with
  | zero => intro s; rfl
  | succ n ih =>
    intro s
    rw [allocN_succ, List.length_cons, ih]

theorem allocN_add (m : Nat) :
    ∀ (n : Nat) (s : PidAllocatorInner),
      allocN s (m + n)
        = ((allocN s m).1 ++ (allocN (allocN s m).2 n).1,
           (allocN (allocN s m).2 n).2) := by
  induction m with
  | zero =>
    intro n s
    rw [Nat.zero_add]
    rfl
  | succ m ih =>
    intro n s
    have hshift : m + 1 + n = m + n + 1 := by omega
    rw [hshift, allocN_succ, ih n s.allocate.2, allocN_succ s m]
    rfl

theorem allocate_none_case (s : PidAllocatorInner)
    (h : s.allocate.1 = none) : s.allocate = (none, s) :=
  allocate_of_forall_max s ((allocate_fst_eq_none_iff s).mp h)

theorem allocate_wf_len (s : PidAllocatorInner) (hwf : Wf s) :
    Wf s.allocate.2
      ∧ s.allocate.2.bottom_layers.length = s.bottom_layers.length := by
  cases h : s.allocate.1 with
  | none => rw [allocate_none_case s h]; exact ⟨hwf, rfl⟩
  | some pid =>
    obtain ⟨-, -, -, -, -, hwf2, hlen⟩ := allocate_step s hwf h
    exact ⟨hwf2, hlen⟩

theorem allocN_wf_len (n : Nat) :
    ∀ s : PidAllocatorInner, Wf s →
      Wf (allocN s n).2
        ∧ (allocN s n).2.bottom_layers.length = s.bottom_layers.length := by
  induction n with
  | zero => intro s hwf; exact ⟨hwf, rfl⟩
  | succ n ih =>
    intro s hwf
    rw [allocN_succ]
    obtain ⟨h1, h2⟩ := allocate_wf_len s hwf
    obtain ⟨h3, h4⟩ := ih s.allocate.2 h1
    exact ⟨h3, h4.trans h2⟩

/-- All ids returned by a run of successful allocations are distinct,
in range, and were free in the starting state. -/
theorem allocN_distinct (n : Nat) :
    ∀ (s : PidAllocatorInner) (pids : List Nat), Wf s →
      (allocN s n).1 = pids.map some →
      pids.Nodup ∧ ∀ p ∈ pids, p < WORD_BITS * s.bottom_layers.length
        ∧ s.contains p = false := by
  induction n with
  | zero =>
    intro s pids hwf h
    have hnil : pids = [] := by
      cases pids with
      | nil => rfl
      | cons a t => simp [allocN] at h
    subst hnil
    simp
  | succ n ih =>
    intro s pids hwf h
    rw [allocN_succ] at h
    cases pids with
    | nil => simp at h
    | cons p ps =>
      simp only [List.map_cons, List.cons.injEq] at h
      obtain ⟨hp, hps⟩ := h
      obtain ⟨hbound, hfree, hcont, hothers, -, hwf2, hlen⟩ :=
        allocate_step s hwf hp
      obtain ⟨hnd, hall⟩ := ih s.allocate.2 ps hwf2 hps
      constructor
      · refine List.nodup_cons.mpr ⟨?_, hnd⟩
        intro hmem
        have hc := (hall p hmem).2
        rw [hcont] at hc
        cases hc
      · intro q hq
        rcases List.mem_cons.mp hq with rfl | hq2
        · exact ⟨hbound, hfree⟩
        · obtain ⟨hqb, hqf⟩ := hall q hq2
          refine ⟨by rwa [hlen] at hqb, ?_⟩
          by_cases hqp : q = p
          · subst hqp; exact hfree
          · rw [← hothers q hqp]; exact hqf

theorem allocN_one (s : PidAllocatorInner) :
    allocN s 1 = ([s.allocate.1], s.allocate.2) := rfl

theorem allocN_succ_right (s : PidAllocatorInner) (n : Nat) :
    allocN s (n + 1)
      = ((allocN s n).1 ++ [(allocN s n).2.allocate.1],
         (allocN s n).2.allocate.2) := by
  rw [allocN_add n 1 s, allocN_one]

/-- The result recorded at position `j` of a run is exactly the result of
the allocation performed in the state reached after `j` steps. -/
theorem allocN_getD (s : PidAllocatorInner) (j n : Nat) (hj : j < n) :
    (allocN s n).1.getD j none = (allocN s j).2.allocate.1 := by
  obtain ⟨k, rfl⟩ : ∃ k, n = (j + 1) + k := ⟨n - (j + 1), by omega⟩
  rw [allocN_add (j + 1) k s]
  dsimp only
  rw [allocN_succ_right s j]
  dsimp only
  rw [List.append_assoc, List.getD_eq_getElem?_getD,
    List.getElem?_append_right (by rw [allocN_length]),
    allocN_length]
  simp

/-! ### Sequential allocation from the empty pool -/

/-- Detail word `i` after `k` sequential allocations from the empty pool:
the low `k - WORD_BITS * i` bits are set (clamped to the word width). -/
def seqWord (k i : Nat) : Nat := 2 ^ (min WORD_BITS (k - WORD_BITS * i)) - 1

/-- The detail words after `k` sequential allocations from the empty pool. -/
def seqLayers (n k : Nat) : List Nat := (List.range n).map (seqWord k)

theorem seqLayers_length (n k : Nat) : (seqLayers n k).length = n := by
  simp [seqLayers]

theorem seqLayers_getD {n i : Nat} (k : Nat) (hi : i < n) :
    (seqLayers n k).getD i 0 = seqWord k i := by
  simp [seqLayers, List.getD_eq_getElem?_getD, List.getElem?_range, hi]

theorem seqWord_full {k i : Nat} (h : WORD_BITS * (i + 1) ≤ k) :
    seqWord k i = USIZE_MAX := by
  unfold seqWord USIZE_MAX
  have hmin : min WORD_BITS (k - WORD_BITS * i) = WORD_BITS := by
    simp only [WORD_BITS] at h ⊢
    omega
  rw [hmin]
  rfl

theorem seqLayers_zero (n : Nat) : seqLayers n 0 = List.replicate n 0 := by
  apply List.ext_getElem
  · simp [seqLayers]
  · intro i h1 h2
    simp [seqLayers, seqWord]

theorem seqLayers_set {n k : Nat} (hk : k < WORD_BITS * n) :
    (seqLayers n k).set (k / WORD_BITS) (2 ^ (k % WORD_BITS + 1) - 1)
      = seqLayers n (k + 1) := by
  apply List.ext_getElem
  · simp [seqLayers]
  · intro i h1 h2
    rw [List.length_set, seqLayers_length] at h1
    by_cases hi : i = k / WORD_BITS
    · subst hi
      rw [List.getElem_set_self]
      simp only [seqLayers, List.getElem_map, List.getElem_range]
      unfold seqWord
      have harith : k + 1 - WORD_BITS * (k / WORD_BITS) = k % WORD_BITS + 1 := by
        simp only [WORD_BITS]
        omega
      have hr : k % WORD_BITS < WORD_BITS := Nat.mod_lt k WORD_BITS_pos
      rw [harith, Nat.min_eq_right (by omega)]
    · rw [List.getElem_set_ne (fun hc => hi hc.symm)]
      simp only [seqLayers, List.getElem_map, List.getElem_range]
      unfold seqWord
      congr 1
      congr 1
      simp only [WORD_BITS] at hi ⊢
      omega

theorem allocate_seqLayers {n k : Nat} (hk : k < WORD_BITS * n) (t : Nat) :
    (PidAllocatorInner.allocate ⟨t, seqLayers n k⟩).1 = some k ∧
    (PidAllocatorInner.allocate ⟨t, seqLayers n k⟩).2.bottom_layers
      = seqLayers n (k + 1) := by
  have hq : k / WORD_BITS < n := by
    simp only [WORD_BITS] at hk ⊢
    omega
  have hr : k % WORD_BITS < WORD_BITS := Nat.mod_lt k WORD_BITS_pos
  have hfull : ∀ j < k / WORD_BITS, (seqLayers n k).getD j 0 = USIZE_MAX := by
    intro j hj
    rw [seqLayers_getD k (by omega)]
    apply seqWord_full
    simp only [WORD_BITS] at hj ⊢
    omega
  have hmid : (seqLayers n k).getD (k / WORD_BITS) 0
      = 2 ^ (k % WORD_BITS) - 1 := by
    rw [seqLayers_getD k hq]
    unfold seqWord
    have h1 : k - WORD_BITS * (k / WORD_BITS) = k % WORD_BITS := by
      simp only [WORD_BITS]
      omega
    rw [h1, Nat.min_eq_right (by omega)]
  have hne : (seqLayers n k).getD (k / WORD_BITS) 0 ≠ USIZE_MAX := by
    rw [hmid]
    intro hcon
    unfold USIZE_MAX at hcon
    have hlt : 2 ^ (k % WORD_BITS) < 2 ^ 64 := by
      exact Nat.pow_lt_pow_right (by norm_num) hr
    have hpos : 0 < 2 ^ (k % WORD_BITS) := Nat.two_pow_pos _
    omega
  have hspec := allocate_spec ⟨t, seqLayers n k⟩ (k / WORD_BITS)
    (by rw [seqLayers_length]; exact hq) hfull hne
  constructor
  · rw [hspec]
    dsimp only
    rw [hmid, lowestZeroBit_two_pow_sub_one hr]
    congr 1
    simp only [WORD_BITS]
    omega
  · rw [hspec]
    dsimp only
    rw [hmid, lowestZeroBit_two_pow_sub_one hr, two_pow_sub_one_or]
    exact seqLayers_set hk

/-- Sequential allocation from a state whose detail words are empty yields
`0, 1, 2, ...` and leaves the expected bit pattern behind. -/
theorem allocN_seq (n : Nat) :
    ∀ k : Nat, k ≤ WORD_BITS * n → ∀ s : PidAllocatorInner,
      s.bottom_layers = seqLayers n 0 →
      (allocN s k).1 = (List.range k).map some ∧
      (allocN s k).2.bottom_layers = seqLayers n k := by
  intro k
  induction k with
  | zero => intro hk s hs; exact ⟨rfl, hs⟩
  | succ k ih =>
    intro hk s hs
    obtain ⟨ih1, ih2⟩ := ih (by omega) s hs
    have hS : (allocN s k).2 = ⟨(allocN s k).2.top_layer, seqLayers n k⟩ := by
      rw [← ih2]
    obtain ⟨ha1, ha2⟩ := allocate_seqLayers (n := n) (k := k) (by omega)
      ((allocN s k).2.top_layer)
    rw [allocN_succ_right]
    constructor
    · dsimp only
      rw [ih1, hS, ha1, List.range_succ, List.map_append]
      rfl
    · dsimp only
      rw [hS, ha2]

/-! ### The summary word never influences allocation -/

theorem allocate_top_irrel (t t' : Nat) (L : List Nat) :
    (PidAllocatorInner.allocate ⟨t, L⟩).1
        = (PidAllocatorInner.allocate ⟨t', L⟩).1 ∧
      (PidAllocatorInner.allocate ⟨t, L⟩).2.bottom_layers
        = (PidAllocatorInner.allocate ⟨t', L⟩).2.bottom_layers := by
  unfold PidAllocatorInner.allocate
  dsimp only
  cases h : allocAux L with
  | none => exact ⟨rfl, rfl⟩
  | some r =>
    obtain ⟨i, b, L', full⟩ := r
    exact ⟨rfl, rfl⟩

theorem allocN_top_irrel (n : Nat) :
    ∀ (t t' : Nat) (L : List Nat),
      (allocN ⟨t, L⟩ n).1 = (allocN ⟨t', L⟩ n).1 ∧
      (allocN ⟨t, L⟩ n).2.bottom_layers
        = (allocN ⟨t', L⟩ n).2.bottom_layers := by
  induction n with
  | zero => exact fun t t' L => ⟨rfl, rfl⟩
  | succ n ih =>
    intro t t' L
    rw [allocN_succ, allocN_succ]
    obtain ⟨h1, h2⟩ := allocate_top_irrel t t' L
    have e1 : (PidAllocatorInner.allocate ⟨t, L⟩).2
        = ⟨(PidAllocatorInner.allocate ⟨t, L⟩).2.top_layer,
           (PidAllocatorInner.allocate ⟨t, L⟩).2.bottom_layers⟩ := rfl
    have e2 : (PidAllocatorInner.allocate ⟨t', L⟩).2
        = ⟨(PidAllocatorInner.allocate ⟨t', L⟩).2.top_layer,
           (PidAllocatorInner.allocate ⟨t, L⟩).2.bottom_layers⟩ := by
      rw [h2]
    obtain ⟨h3, h4⟩ := ih (PidAllocatorInner.allocate ⟨t, L⟩).2.top_layer
      (PidAllocatorInner.allocate ⟨t', L⟩).2.top_layer
      (PidAllocatorInner.allocate ⟨t, L⟩).2.bottom_layers
    constructor
    · dsimp only
      rw [h1, e1, e2, h3]
    · dsimp only
      rw [e1, e2, h4]

/-! ### The two recycle implementations agree -/

/-- Clearing a bit position below the word width always leaves the word
different from all-ones. -/
theorem and_mask_ne_max (w b : Nat) (hb : b < WORD_BITS) :
    w &&& (USIZE_MAX ^^^ (1 <<< b)) ≠ USIZE_MAX := by
  intro hcon
  have h1 := congrArg (fun x => x.testBit b) hcon
  dsimp only at h1
  rw [testBit_and_mask _ _ _ hb, testBit_USIZE_MAX] at h1
  simp [hb] at h1

/-- The conditional summary clear of `src/lib.rs` and the unconditional one
of `src/allocator.rs` compute the same function: after the bit clear the
detail word can never be all-ones, so the condition always fires. -/
theorem recycle_eq (s : PidAllocatorInner) (number : Nat) :
    recycleLib s number = recycleAllocator s number := by
  unfold recycleLib recycleAllocator
  rw [shiftRight_shift, and_word_mask]
  dsimp only
  cases h : s.bottom_layers[number / WORD_BITS]? with
  | none => rfl
  | some w =>
    dsimp only
    rw [if_pos (and_mask_ne_max w (number % WORD_BITS)
      (Nat.mod_lt _ WORD_BITS_pos))]

/-! ### The effect of one recycle -/

theorem recycleLib_eq_none {s : PidAllocatorInner} {number : Nat}
    (h : s.bottom_layers.length ≤ number / WORD_BITS) :
    recycleLib s number = none := by
  unfold recycleLib
  dsimp only
  rw [List.getElem?_eq_none h]

theorem recycleLib_eq_some {s : PidAllocatorInner} {number : Nat}
    (h : number / WORD_BITS < s.bottom_layers.length) :
    recycleLib s number = some
      { top_layer := s.top_layer
          &&& (USIZE_MAX ^^^ (1 <<< (number / WORD_BITS))),
        bottom_layers := s.bottom_layers.set (number / WORD_BITS)
          ((s.bottom_layers.getD (number / WORD_BITS) 0)
            &&& (USIZE_MAX ^^^ (1 <<< (number % WORD_BITS)))) } := by
  unfold recycleLib
  dsimp only
  rw [List.getElem?_eq_getElem h]
  dsimp only
  have hgd : s.bottom_layers.getD (number / WORD_BITS) 0
      = s.bottom_layers[number / WORD_BITS] := by
    rw [List.getD_eq_getElem?_getD, List.getElem?_eq_getElem h]
    rfl
  rw [if_pos (and_mask_ne_max _ (number % WORD_BITS)
    (Nat.mod_lt _ WORD_BITS_pos)), hgd]

/-- Recycling an in-range id clears exactly that id's bit. -/
theorem recycleLib_effect {s : PidAllocatorInner} {number : Nat}
    (hin : number / WORD_BITS < s.bottom_layers.length) :
    ∃ s', recycleLib s number = some s' ∧
      s'.bottom_layers.length = s.bottom_layers.length ∧
      s'.contains number = false ∧
      (∀ y, y ≠ number → s'.contains y = s.contains y) ∧
      (Wf s → Wf s') := by
  rw [recycleLib_eq_some hin]
  refine ⟨_, rfl, ?_, ?_, ?_, ?_⟩
  · dsimp only
    rw [List.length_set]
  · have hb : number % WORD_BITS < WORD_BITS := Nat.mod_lt _ WORD_BITS_pos
    rw [contains_eq]
    dsimp only
    rw [List.length_set, if_pos hin, List.getD_eq_getElem?_getD,
      List.getElem?_set_self hin, Option.getD_some, testBit_and_mask _ _ _ hb]
    simp
  · intro y hy
    have hb : number % WORD_BITS < WORD_BITS := Nat.mod_lt _ WORD_BITS_pos
    rw [contains_eq, contains_eq]
    dsimp only
    rw [List.length_set]
    by_cases hyr : y / WORD_BITS < s.bottom_layers.length
    · rw [if_pos hyr, if_pos hyr]
      by_cases hyi : y / WORD_BITS = number / WORD_BITS
      · rw [hyi, List.getD_eq_getElem?_getD, List.getElem?_set_self hin,
          Option.getD_some, testBit_and_mask _ _ _ hb]
        have hyb : number % WORD_BITS ≠ y % WORD_BITS := by
          intro hc
          apply hy
          rw [← Nat.div_add_mod y WORD_BITS, ← Nat.div_add_mod number WORD_BITS,
            hyi, hc]
        have hyw : y % WORD_BITS < WORD_BITS := Nat.mod_lt _ WORD_BITS_pos
        rw [decide_eq_true hyw, decide_eq_false hyb]
        simp
      · rw [List.getD_eq_getElem?_getD, List.getD_eq_getElem?_getD,
          List.getElem?_set_ne (fun hc => hyi hc.symm)]
        rw [List.getD_eq_getElem?_getD]
    · rw [if_neg hyr, if_neg hyr]
  · intro hwf v hv
    dsimp only at hv
    rcases List.mem_or_eq_of_mem_set hv with hv2 | rfl
    · exact hwf v hv2
    · apply Nat.and_lt_two_pow
      apply Nat.xor_lt_two_pow USIZE_MAX_lt
      rw [Nat.one_shiftLeft]
      exact Nat.pow_lt_pow_right (by norm_num) (Nat.mod_lt _ WORD_BITS_pos)

/-! ### Preservation of the summary invariant -/

theorem SummaryInv_new (order : Nat) :
    SummaryInv (PidAllocatorInner.new order) := by
  intro i hi
  unfold PidAllocatorInner.new at hi ⊢
  dsimp only at hi ⊢
  rw [List.length_replicate] at hi
  rw [List.getD_eq_getElem?_getD, List.getElem?_replicate_of_lt hi,
    Option.getD_some, Nat.zero_testBit]
  simp only [Bool.false_eq_true, false_iff]
  intro hcon
  have hpos : 0 < USIZE_MAX := by decide
  omega

theorem Wf_new (order : Nat) : Wf (PidAllocatorInner.new order) := by
  intro w hw
  unfold PidAllocatorInner.new at hw
  dsimp only at hw
  rw [List.eq_of_mem_replicate hw]
  exact Nat.two_pow_pos _

theorem allocate_length (s : PidAllocatorInner) :
    s.allocate.2.bottom_layers.length = s.bottom_layers.length := by
  cases h : s.allocate.1 with
  | none => rw [allocate_none_case s h]
  | some pid =>
    obtain ⟨i, hi, hfull, hne, -⟩ := allocate_some_elim s h
    rw [allocate_spec s i hi hfull hne]
    dsimp only
    rw [List.length_set]

theorem allocate_SummaryInv {s : PidAllocatorInner} (hinv : SummaryInv s) :
    SummaryInv s.allocate.2 := by
  cases h : s.allocate.1 with
  | none => rw [allocate_none_case s h]; exact hinv
  | some pid =>
    obtain ⟨i, hi, hfull, hne, -⟩ := allocate_some_elim s h
    have hspec := allocate_spec s i hi hfull hne
    intro j hj
    rw [hspec] at hj ⊢
    dsimp only at hj ⊢
    rw [List.length_set] at hj
    by_cases hji : j = i
    · subst hji
      rw [getD_set_self hj]
      by_cases hfl : s.bottom_layers.getD j 0
          ||| (1 <<< lowestZeroBit (s.bottom_layers.getD j 0)) = USIZE_MAX
      · rw [if_pos hfl, testBit_or_one_shiftLeft, hfl]
        simp
      · rw [if_neg hfl]
        constructor
        · intro htop
          exact absurd ((hinv j hj).mp htop) hne
        · intro hw2
          exact absurd hw2 hfl
    · rw [getD_set_ne (fun hc => hji hc.symm)]
      by_cases hfl : s.bottom_layers.getD i 0
          ||| (1 <<< lowestZeroBit (s.bottom_layers.getD i 0)) = USIZE_MAX
      · rw [if_pos hfl, testBit_or_one_shiftLeft,
          decide_eq_false (fun hc : i = j => hji hc.symm)]
        rw [Bool.or_false]
        exact hinv j hj
      · rw [if_neg hfl]
        exact hinv j hj

theorem recycleLib_in_range {s s' : PidAllocatorInner} {number : Nat}
    (h : recycleLib s number = some s') :
    number / WORD_BITS < s.bottom_layers.length := by
  by_contra hcon
  rw [recycleLib_eq_none (Nat.le_of_not_lt hcon)] at h
  cases h

theorem recycleLib_length {s s' : PidAllocatorInner} {number : Nat}
    (h : recycleLib s number = some s') :
    s'.bottom_layers.length = s.bottom_layers.length := by
  have hin := recycleLib_in_range h
  rw [recycleLib_eq_some hin] at h
  obtain rfl : _ = s' := Option.some_inj.mp h
  dsimp only
  rw [List.length_set]

theorem recycleLib_SummaryInv {s s' : PidAllocatorInner} {number : Nat}
    (hlen : s.bottom_layers.length ≤ WORD_BITS)
    (hinv : SummaryInv s) (h : recycleLib s number = some s') :
    SummaryInv s' := by
  have hin := recycleLib_in_range h
  rw [recycleLib_eq_some hin] at h
  obtain rfl : _ = s' := Option.some_inj.mp h
  intro j hj
  dsimp only at hj ⊢
  rw [List.length_set] at hj
  have hjW : j < WORD_BITS := lt_of_lt_of_le hj hlen
  have hliW : number / WORD_BITS < WORD_BITS := lt_of_lt_of_le hin hlen
  rw [testBit_and_mask _ _ _ hliW, decide_eq_true hjW]
  by_cases hji : j = number / WORD_BITS
  · subst hji
    rw [getD_set_self hin]
    have hne := and_mask_ne_max (s.bottom_layers.getD (number / WORD_BITS) 0)
      (number % WORD_BITS) (Nat.mod_lt _ WORD_BITS_pos)
    simp only [List.getD_eq_getElem?_getD] at hne
    simp [hne]
  · rw [getD_set_ne (fun hc => hji hc.symm),
      decide_eq_false (fun hc : number / WORD_BITS = j => hji hc.symm)]
    simp only [Bool.and_true, Bool.not_false]
    exact hinv j hj

/-! ### Reachable states -/

/-- One public operation on the shared store: an allocation attempt, or a
recycle — through either implementation — of an id that `contains` reports
as currently allocated. -/
inductive Step : PidAllocatorInner → PidAllocatorInner → Prop
  | alloc (s : PidAllocatorInner) : Step s s.allocate.2
  | recycle_lib (s s' : PidAllocatorInner) (number : Nat)
      (hc : s.contains number = true) (h : recycleLib s number = some s') :
      Step s s'
  | recycle_allocator (s s' : PidAllocatorInner) (number : Nat)
      (hc : s.contains number = true) (h : recycleAllocator s number = some s') :
      Step s s'

/-- States reachable from the empty pool by well-formed operation
sequences. -/
def Reachable (order : Nat) (s : PidAllocatorInner) : Prop :=
  Relation.ReflTransGen Step (PidAllocatorInner.new order) s

theorem Reachable_inv {order : Nat} (horder : order ≤ WORD_BITS) :
    ∀ {s : PidAllocatorInner}, Reachable order s →
      SummaryInv s ∧ s.bottom_layers.length = order := by
  intro s h
  induction h with
  | refl =>
    refine ⟨SummaryInv_new order, ?_⟩
    unfold PidAllocatorInner.new
    dsimp only
    rw [List.length_replicate]
  | tail hab hbc ih =>
    obtain ⟨hinv, hlen⟩ := ih
    cases hbc with
    | alloc =>
      exact ⟨allocate_SummaryInv hinv, (allocate_length _).trans hlen⟩
    | recycle_lib s' number hc hrec =>
      exact ⟨recycleLib_SummaryInv (hlen ▸ horder) hinv hrec,
        (recycleLib_length hrec).trans hlen⟩
    | recycle_allocator s' number hc hrec =>
      rw [← recycle_eq] at hrec
      exact ⟨recycleLib_SummaryInv (hlen ▸ horder) hinv hrec,
        (recycleLib_length hrec).trans hlen⟩

/-! ### A free id is eventually returned by repeated allocation -/

theorem free_eventually (c : Nat) :
    ∀ s : PidAllocatorInner, Wf s →
      ∀ x : Nat, x < WORD_BITS * s.bottom_layers.length →
        s.contains x = false →
        ((Finset.range x).filter (fun y => s.contains y = false)).card = c →
        ∃ k, some x ∈ (allocN s k).1 := by
  induction c using Nat.strong_induction_on with
  | _ c ih =>
    intro s hwf x hx hfree hcard
    have hsucc : ∃ pid, s.allocate.1 = some pid := by
      cases hp : s.allocate.1 with
      | some pid => exact ⟨pid, rfl⟩
      | none =>
        have hall := (allocate_fst_eq_none_iff s).mp hp
        have hxi : x / WORD_BITS < s.bottom_layers.length := by
          simp only [WORD_BITS] at hx ⊢
          omega
        have hmax : s.bottom_layers.getD (x / WORD_BITS) 0 = USIZE_MAX :=
          hall _ (getD_mem hxi)
        have hct : s.contains x = true := by
          rw [contains_eq, if_pos hxi, hmax, testBit_USIZE_MAX]
          simp [Nat.mod_lt x WORD_BITS_pos]
        rw [hct] at hfree
        cases hfree
    obtain ⟨pid, hp⟩ := hsucc
    obtain ⟨hbound, hfreep, hcont, hothers, hmin, hwf2, hlen⟩ :=
      allocate_step s hwf hp
    by_cases hpx : pid = x
    · refine ⟨1, ?_⟩
      rw [allocN_one]
      subst hpx
      simp [hp]
    · have hplt : pid < x := by
        rcases Nat.lt_trichotomy pid x with hlt | heq | hgt
        · exact hlt
        · exact absurd heq hpx
        · have hcx := hmin x hgt
          rw [hfree] at hcx
          cases hcx
      have hfree2 : s.allocate.2.contains x = false := by
        rw [hothers x (fun hc => hpx hc.symm)]
        exact hfree
      have hsub : (Finset.range x).filter
            (fun y => s.allocate.2.contains y = false)
          = ((Finset.range x).filter (fun y => s.contains y = false)).erase
              pid := by
        ext y
        simp only [Finset.mem_filter, Finset.mem_erase, Finset.mem_range]
        constructor
        · rintro ⟨hy1, hy2⟩
          have hyp : y ≠ pid := by
            intro hc
            subst hc
            rw [hcont] at hy2
            cases hy2
          exact ⟨hyp, hy1, by rw [← hothers y hyp]; exact hy2⟩
        · rintro ⟨hy0, hy1, hy2⟩
          exact ⟨hy1, by rw [hothers y hy0]; exact hy2⟩
      have hmem : pid ∈ (Finset.range x).filter
          (fun y => s.contains y = false) := by
        simp [Finset.mem_filter, Finset.mem_range, hplt, hfreep]
      have hcard2 : ((Finset.range x).filter
          (fun y => s.allocate.2.contains y = false)).card < c := by
        rw [hsub, Finset.card_erase_of_mem hmem, hcard]
        have hpos : 0 < c := by
          rw [← hcard]
          exact Finset.card_pos.mpr ⟨pid, hmem⟩
        omega
      obtain ⟨k, hk⟩ := ih _ hcard2 s.allocate.2 hwf2 x
        (by rw [hlen]; exact hx) hfree2 rfl
      refine ⟨k + 1, ?_⟩
      rw [allocN_succ]
      exact List.mem_cons_of_mem _ hk

/-! ### Draining the pool: recycling a batch of ids -/

/-- Recycle a list of ids one after the other (the drops of the handles, in
the order the caller chooses); `none` if any single recycle panics. -/
def recycleAll (s : PidAllocatorInner) : List Nat → Option PidAllocatorInner
  | [] => some s
  | x :: xs =>
    match recycleLib s x with
    | none => none
    | some s' => recycleAll s' xs

theorem recycleAll_spec (l : List Nat) :
    ∀ s : PidAllocatorInner,
      (∀ x ∈ l, x / WORD_BITS < s.bottom_layers.length) →
      ∃ s', recycleAll s l = some s' ∧
        s'.bottom_layers.length = s.bottom_layers.length ∧
        (Wf s → Wf s') ∧
        ∀ y, s'.contains y = if y ∈ l then false else s.contains y := by
  induction l with
  | nil =>
    intro s hmem
    exact ⟨s, rfl, rfl, fun h => h, fun y => by simp⟩
  | cons x xs ih =>
    intro s hmem
    have hx := hmem x (List.mem_cons_self x xs)
    obtain ⟨s1, hrec, hlen1, hfalse, hothers, hwf1⟩ := recycleLib_effect hx
    obtain ⟨s', hall, hlen', hwf', hcont'⟩ := ih s1
      (fun z hz => by rw [hlen1]; exact hmem z (List.mem_cons_of_mem x hz))
    refine ⟨s', ?_, hlen'.trans hlen1, fun h => hwf' (hwf1 h), ?_⟩
    · unfold recycleAll
      rw [hrec]
      exact hall
    · intro y
      rw [hcont' y]
      by_cases hyx : y ∈ xs
      · simp [hyx]
      · by_cases hyxx : y = x
        · subst hyxx
          simp [hyx, hfalse]
        · rw [hothers y hyxx]
          simp [hyx, hyxx]

/-- A well-formed state in which no in-range id is allocated has all detail
words zero. -/
theorem contains_false_to_zero {s : PidAllocatorInner} (hwf : Wf s)
    (h : ∀ y < WORD_BITS * s.bottom_layers.length, s.contains y = false) :
    s.bottom_layers = List.replicate s.bottom_layers.length 0 := by
  apply List.ext_getElem
  · rw [List.length_replicate]
  · intro i h1 h2
    rw [List.getElem_replicate]
    apply Nat.eq_of_testBit_eq
    intro b
    rw [Nat.zero_testBit]
    have hgd : s.bottom_layers.getD i 0 = s.bottom_layers[i] := by
      rw [List.getD_eq_getElem?_getD, List.getElem?_eq_getElem h1]
      rfl
    by_cases hb : b < WORD_BITS
    · have hy := h (i * WORD_BITS + b) (by
        simp only [WORD_BITS] at hb ⊢
        omega)
      have hdiv : (i * WORD_BITS + b) / WORD_BITS = i := by
        rw [Nat.mul_comm, Nat.mul_add_div WORD_BITS_pos,
          Nat.div_eq_of_lt hb, Nat.add_zero]
      have hmod : (i * WORD_BITS + b) % WORD_BITS = b := by
        rw [Nat.mul_comm, Nat.mul_add_mod, Nat.mod_eq_of_lt hb]
      rw [contains_eq, hdiv, hmod, if_pos h1, hgd] at hy
      exact hy
    · exact Nat.testBit_lt_two_pow (lt_of_lt_of_le
        (hwf _ (List.getElem_mem h1))
        (Nat.pow_le_pow_right (by norm_num) (Nat.le_of_not_lt hb)))

/-! ### The claims -/

set_option maxRecDepth 10000 in
/-- C1: in any state whose first not-all-ones detail word (scanning in index
order) is at index `i`, `allocate` succeeds and returns
`i * WORD_BITS + bit_position` where `bit_position` is that word's lowest
clear bit — the lowest free id wins.  Concretely, for `ORDER = 1`,
sequential allocation from the empty pool returns `0, 1, ..., 63` in
increasing order, and after recycling id 5 the next allocation returns 5. -/
theorem claim_C1_allocate_lowest_free (s : PidAllocatorInner) (i : Nat)
    (hi : i < s.bottom_layers.length)
    (hfull : ∀ j < i, s.bottom_layers.getD j 0 = USIZE_MAX)
    (hne : s.bottom_layers.getD i 0 ≠ USIZE_MAX) :
    s.allocate.1
        = some (i * WORD_BITS + lowestZeroBit (s.bottom_layers.getD i 0))
    ∧ (allocN (PidAllocatorInner.new 1) WORD_BITS).1
        = (List.range WORD_BITS).map some
    ∧ (recycleLib (allocN (PidAllocatorInner.new 1) WORD_BITS).2 5).bind
        (fun s2 => s2.allocate.1) = some 5 := by
  refine ⟨?_, ?_, ?_⟩
  · rw [allocate_spec s i hi hfull hne]
  · exact (allocN_seq 1 WORD_BITS (by decide)
      (PidAllocatorInner.new 1) (by rw [seqLayers_zero]; rfl)).1
  · decide

/-- Witness for C1 at the single-word state `[5]` (first free bit is 1). -/
theorem claim_C1_witness :
    (⟨0, [5]⟩ : PidAllocatorInner).allocate.1
        = some (0 * WORD_BITS
            + lowestZeroBit
                ((⟨0, [5]⟩ : PidAllocatorInner).bottom_layers.getD 0 0))
    ∧ (allocN (PidAllocatorInner.new 1) WORD_BITS).1
        = (List.range WORD_BITS).map some
    ∧ (recycleLib (allocN (PidAllocatorInner.new 1) WORD_BITS).2 5).bind
        (fun s2 => s2.allocate.1) = some 5 :=
  claim_C1_allocate_lowest_free ⟨0, [5]⟩ 0 (by decide)
    (fun j hj => absurd hj (Nat.not_lt_zero j)) (by decide)

/-- C2: `allocate` fails (returns `none`) iff every detail word is all-ones;
from the empty pool, after exactly `ORDER * WORD_BITS` successful
allocations the next attempt is exhausted, and after any fewer the next
attempt succeeds. -/
theorem claim_C2_exhaustion_iff (s : PidAllocatorInner) (n k : Nat)
    (hk : k < WORD_BITS * n) :
    (s.allocate.1 = none ↔ ∀ w ∈ s.bottom_layers, w = USIZE_MAX)
    ∧ (allocN (PidAllocatorInner.new n) (WORD_BITS * n)).2.allocate.1 = none
    ∧ ((allocN (PidAllocatorInner.new n) k).2.allocate.1).isSome = true := by
  refine ⟨allocate_fst_eq_none_iff s, ?_, ?_⟩
  · obtain ⟨-, h2⟩ := allocN_seq n (WORD_BITS * n) (le_refl _)
      (PidAllocatorInner.new n) (by rw [seqLayers_zero]; rfl)
    apply (allocate_fst_eq_none_iff _).mpr
    rw [h2]
    intro w hw
    simp only [seqLayers, List.mem_map, List.mem_range] at hw
    obtain ⟨i, hi, rfl⟩ := hw
    exact seqWord_full (Nat.mul_le_mul_left WORD_BITS hi)
  · obtain ⟨-, h2⟩ := allocN_seq n k (by omega)
      (PidAllocatorInner.new n) (by rw [seqLayers_zero]; rfl)
    have hS : (allocN (PidAllocatorInner.new n) k).2
        = ⟨(allocN (PidAllocatorInner.new n) k).2.top_layer,
           seqLayers n k⟩ := by
      rw [← h2]
    rw [hS, (allocate_seqLayers hk
      ((allocN (PidAllocatorInner.new n) k).2.top_layer)).1]
    rfl

/-- Witness for C2 with `ORDER = 1`, zero prior allocations. -/
theorem claim_C2_witness :
    ((PidAllocatorInner.new 1).allocate.1 = none
        ↔ ∀ w ∈ (PidAllocatorInner.new 1).bottom_layers, w = USIZE_MAX)
    ∧ (allocN (PidAllocatorInner.new 1) (WORD_BITS * 1)).2.allocate.1 = none
    ∧ ((allocN (PidAllocatorInner.new 1) 0).2.allocate.1).isSome = true :=
  claim_C2_exhaustion_iff (PidAllocatorInner.new 1) 1 0 (by decide)

/-- C3: the summary invariant — summary bit `i` set iff detail word `i` is
all-ones — holds in the empty state and in every state reachable from it by
allocations and by recycles (through either implementation) of
currently-allocated ids. -/
theorem claim_C3_summary_invariant (order : Nat) (s : PidAllocatorInner)
    (horder : order ≤ WORD_BITS) (h : Reachable order s) : SummaryInv s :=
  (Reachable_inv horder h).1

/-- Witness for C3: the state after one allocation from the empty pool. -/
theorem claim_C3_witness :
    SummaryInv (PidAllocatorInner.new 1).allocate.2 :=
  claim_C3_summary_invariant 1 _ (by decide)
    (Relation.ReflTransGen.single (Step.alloc _))

/-- C4: any run of `n ≤ ORDER * WORD_BITS` successful allocations from any
well-formed state yields pairwise-distinct ids, each in
`[0, ORDER * WORD_BITS)`, and each free (not allocated) in the state from
which its own allocation was performed. -/
theorem claim_C4_alloc_unique_free (s : PidAllocatorInner) (n : Nat)
    (pids : List Nat) (hwf : Wf s)
    (hn : n ≤ WORD_BITS * s.bottom_layers.length)
    (h : (allocN s n).1 = pids.map some) :
    pids.Nodup
    ∧ (∀ p ∈ pids, p < WORD_BITS * s.bottom_layers.length)
    ∧ ∀ j < n, (allocN s j).2.allocate.1 = some (pids.getD j 0)
        ∧ (allocN s j).2.contains (pids.getD j 0) = false := by
  obtain ⟨h1, h2⟩ := allocN_distinct n s pids hwf h
  refine ⟨h1, fun p hp => (h2 p hp).1, ?_⟩
  intro j hj
  have hlenp : pids.length = n := by
    have hl := allocN_length n s
    rw [h, List.length_map] at hl
    omega
  have hj2 : j < pids.length := by omega
  have hgd := allocN_getD s j n hj
  rw [h] at hgd
  have hmap : (pids.map some).getD j none = some (pids.getD j 0) := by
    rw [List.getD_eq_getElem?_getD, List.getElem?_map,
      List.getElem?_eq_getElem hj2, List.getD_eq_getElem?_getD,
      List.getElem?_eq_getElem hj2]
    rfl
  rw [hmap] at hgd
  have hwfj := (allocN_wf_len j s hwf).1
  obtain ⟨-, hfree, -, -, -, -, -⟩ := allocate_step (allocN s j).2 hwfj hgd.symm
  exact ⟨hgd.symm, hfree⟩

/-- Witness for C4: two allocations from the empty one-word pool. -/
theorem claim_C4_witness :
    ([0, 1] : List Nat).Nodup
    ∧ (∀ p ∈ ([0, 1] : List Nat),
        p < WORD_BITS * (PidAllocatorInner.new 1).bottom_layers.length)
    ∧ ∀ j < 2, (allocN (PidAllocatorInner.new 1) j).2.allocate.1
          = some (([0, 1] : List Nat).getD j 0)
        ∧ (allocN (PidAllocatorInner.new 1) j).2.contains
            (([0, 1] : List Nat).getD j 0) = false :=
  claim_C4_alloc_unique_free (PidAllocatorInner.new 1) 2 [0, 1]
    (by unfold Wf; decide) (by decide) (by decide)

/-- C5: for an id `x` the store reports allocated, `contains x` is true
before the recycle (the hypothesis), the recycle succeeds, `contains x` is
false immediately after, and `x` is allocatable again: some subsequent run
of allocations returns `x`. -/
theorem claim_C5_recycle_contains (s : PidAllocatorInner) (x : Nat)
    (hwf : Wf s) (hc : s.contains x = true) :
    ∃ s', recycleAllocator s x = some s'
      ∧ s'.contains x = false
      ∧ ∃ k, some x ∈ (allocN s' k).1 := by
  have hin : x / WORD_BITS < s.bottom_layers.length := contains_lt hc
  obtain ⟨s', hrec, hlen, hfalse, hothers, hwfp⟩ := recycleLib_effect hin
  refine ⟨s', by rw [← recycle_eq]; exact hrec, hfalse, ?_⟩
  have hx : x < WORD_BITS * s'.bottom_layers.length := by
    rw [hlen]
    simp only [WORD_BITS] at hin ⊢
    omega
  exact free_eventually _ s' (hwfp hwf) x hx hfalse rfl

/-- Witness for C5: recycle id 0 after allocating it from the empty pool. -/
theorem claim_C5_witness :
    ∃ s', recycleAllocator (PidAllocatorInner.new 1).allocate.2 0 = some s'
      ∧ s'.contains 0 = false
      ∧ ∃ k, some 0 ∈ (allocN s' k).1 :=
  claim_C5_recycle_contains (PidAllocatorInner.new 1).allocate.2 0
    (by unfold Wf; decide) (by decide)

/-- C6: allocate the entire pool from empty, recycle every id in any order
(any permutation of the full id range), and the second full pass of
allocations again yields `ORDER * WORD_BITS` successes with
pairwise-distinct ids — in fact exactly `0, 1, ..., ORDER * WORD_BITS - 1`
again. -/
theorem claim_C6_full_cycle (n : Nat) (perm : List Nat)
    (hperm : perm.Perm (List.range (WORD_BITS * n))) :
    ∃ s2, recycleAll (allocN (PidAllocatorInner.new n) (WORD_BITS * n)).2 perm
        = some s2
      ∧ (allocN s2 (WORD_BITS * n)).1
        = (List.range (WORD_BITS * n)).map some := by
  set s1 := (allocN (PidAllocatorInner.new n) (WORD_BITS * n)).2 with hs1
  have hlen1 : s1.bottom_layers.length = n := by
    rw [hs1, (allocN_wf_len _ _ (Wf_new n)).2]
    unfold PidAllocatorInner.new
    dsimp only
    rw [List.length_replicate]
  have hwf1 : Wf s1 := (allocN_wf_len _ _ (Wf_new n)).1
  have hmem : ∀ x ∈ perm, x / WORD_BITS < s1.bottom_layers.length := by
    intro x hx
    have hxr : x < WORD_BITS * n := by
      have hmemr := hperm.mem_iff.mp hx
      rwa [List.mem_range] at hmemr
    rw [hlen1]
    simp only [WORD_BITS] at hxr ⊢
    omega
  obtain ⟨s2, hs2, hlen2, hwf2, hcont⟩ := recycleAll_spec perm s1 hmem
  refine ⟨s2, hs2, ?_⟩
  have hzero : s2.bottom_layers = List.replicate s2.bottom_layers.length 0 := by
    apply contains_false_to_zero (hwf2 hwf1)
    intro y hy
    rw [hcont y, if_pos]
    apply hperm.mem_iff.mpr
    rw [List.mem_range, ← hlen1, ← hlen2]
    exact hy
  have hlen2n : s2.bottom_layers.length = n := by rw [hlen2, hlen1]
  have hseq : s2.bottom_layers = seqLayers n 0 := by
    rw [hzero, hlen2n, seqLayers_zero]
  exact (allocN_seq n (WORD_BITS * n) (le_refl _) s2 hseq).1

/-- Witness for C6: drain and refill the one-word pool, recycling in
reverse order. -/
theorem claim_C6_witness :
    ∃ s2, recycleAll (allocN (PidAllocatorInner.new 1) (WORD_BITS * 1)).2
        (List.range (WORD_BITS * 1)).reverse = some s2
      ∧ (allocN s2 (WORD_BITS * 1)).1
        = (List.range (WORD_BITS * 1)).map some :=
  claim_C6_full_cycle 1 (List.range (WORD_BITS * 1)).reverse
    (List.reverse_perm _)

/-- C7: `contains` is total over all of `Nat` — out of range
(`n / WORD_BITS ≥ ORDER`) it is `false` without faulting, and in range it
reports exactly bit `n % WORD_BITS` of detail word `n / WORD_BITS`. -/
theorem claim_C7_contains_total (s : PidAllocatorInner) (n : Nat) :
    s.contains n
      = if n / WORD_BITS < s.bottom_layers.length
        then (s.bottom_layers.getD (n / WORD_BITS) 0).testBit (n % WORD_BITS)
        else false :=
  contains_eq s n

/-- C8 counterexample: in the exact scenario the claim describes — recycling
from an already-non-full block (id 1 in the single word `2`) — the two
implementations produce identical states, so no divergence exists there. -/
theorem claim_C8_counterexample :
    recycleLib ⟨0, [2]⟩ 1 = recycleAllocator ⟨0, [2]⟩ 1
      ∧ recycleLib ⟨0, [2]⟩ 1 = some ⟨0, [0]⟩ := by
  decide

/-- C8 (amended): the two recycle implementations are extensionally equal —
after the bit clear a detail word can never be all-ones, so the conditional
summary clear of `src/lib.rs` always fires — and consequently the
unconditional version preserves the summary invariant just as the
conditional one does. -/
theorem claim_C8_amended_recycles_agree (s : PidAllocatorInner) (number : Nat)
    (hlen : s.bottom_layers.length ≤ WORD_BITS) (hinv : SummaryInv s) :
    recycleLib s number = recycleAllocator s number
    ∧ (∀ s', recycleAllocator s number = some s' → SummaryInv s') := by
  refine ⟨recycle_eq s number, ?_⟩
  intro s' h
  rw [← recycle_eq] at h
  exact recycleLib_SummaryInv hlen hinv h

/-- Witness for the amended C8 at the already-non-full block scenario. -/
theorem claim_C8_witness :
    recycleLib ⟨0, [2]⟩ 5 = recycleAllocator ⟨0, [2]⟩ 5
    ∧ (∀ s', recycleAllocator ⟨0, [2]⟩ 5 = some s' → SummaryInv s') :=
  claim_C8_amended_recycles_agree ⟨0, [2]⟩ 5 (by decide)
    (by unfold SummaryInv; decide)

/-- C9: `allocate` never reads the summary word — on two states with the
same detail words and arbitrary summary words it returns the same result
and leaves the same detail words. -/
theorem claim_C9_allocate_ignores_summary (t t' : Nat) (L : List Nat) :
    (PidAllocatorInner.allocate ⟨t, L⟩).1
        = (PidAllocatorInner.allocate ⟨t', L⟩).1
    ∧ (PidAllocatorInner.allocate ⟨t, L⟩).2.bottom_layers
        = (PidAllocatorInner.allocate ⟨t', L⟩).2.bottom_layers :=
  allocate_top_irrel t t' L

/-- C10: unlike `contains`, both recycle implementations hit the
out-of-bounds branch of the detail-array indexing (the Rust panic) for any
`number ≥ ORDER * WORD_BITS`, while every in-range id recycles without
fault. -/
theorem claim_C10_recycle_partial (s : PidAllocatorInner) (number : Nat)
    (h : WORD_BITS * s.bottom_layers.length ≤ number) :
    recycleLib s number = none
    ∧ recycleAllocator s number = none
    ∧ (∀ m, m < WORD_BITS * s.bottom_layers.length →
        (recycleLib s m).isSome = true
        ∧ (recycleAllocator s m).isSome = true) := by
  have hdiv : s.bottom_layers.length ≤ number / WORD_BITS := by
    simp only [WORD_BITS] at h ⊢
    omega
  refine ⟨recycleLib_eq_none hdiv, ?_, ?_⟩
  · rw [← recycle_eq]
    exact recycleLib_eq_none hdiv
  · intro m hm
    have hin : m / WORD_BITS < s.bottom_layers.length := by
      simp only [WORD_BITS] at hm ⊢
      omega
    constructor
    · rw [recycleLib_eq_some hin]
      rfl
    · rw [← recycle_eq, recycleLib_eq_some hin]
      rfl

/-- Witness for C10 at the one-word pool with the first out-of-range id. -/
theorem claim_C10_witness :
    recycleLib (PidAllocatorInner.new 1) 64 = none
    ∧ recycleAllocator (PidAllocatorInner.new 1) 64 = none
    ∧ (∀ m, m < WORD_BITS * (PidAllocatorInner.new 1).bottom_layers.length →
        (recycleLib (PidAllocatorInner.new 1) m).isSome = true
        ∧ (recycleAllocator (PidAllocatorInner.new 1) m).isSome = true) :=
  claim_C10_recycle_partial (PidAllocatorInner.new 1) 64 (by decide)

end PidAlloc
